import Mathlib

/-!
Verification of the grouping, ordering and publish-loop logic of
`threads_bot.py` (class `ThreadsBot`).  The Python code is shallowly
embedded: spreadsheet rows become a `Record` structure, the grouping
function `get_unposted_groups` becomes a pure recursion returning the
(updated) record list together with the insertion-ordered group map,
and the publish loop of `ThreadsBot.run` becomes a trace-producing
recursion parametrised by oracles for the two network calls.
-/

/-- A loosely typed spreadsheet cell as returned by
`worksheet.get_all_records()`: either a string or an integer. -/
inductive PyVal
  | str (s : String)
  | int (n : Int)
deriving DecidableEq

/-- One row of the Posts sheet.  Fields that the code always passes
through Python `str(...)` before use (`posted`, `thread_id`,
`image_path`, `text`) are carried as the converted strings;
`thread_order` keeps the raw cell value because `int(...)` behaves
differently on strings and on integers.  `row_index` is the derived
field the code writes into the record dict (`post['row_index'] = i + 2`). -/
structure Record where
  posted : String := ""
  thread_id : String := ""
  thread_order : Option PyVal := none
  text : String := ""
  image_path : String := ""
  row_index : Option Nat := none
deriving DecidableEq

/-- Python `str.strip()`: whitespace dropped from both ends, modelled
over the character list so that concrete instances evaluate. -/
def pyStrip (s : String) : String :=
  ⟨((s.data.dropWhile Char.isWhitespace).reverse.dropWhile Char.isWhitespace).reverse⟩

/-- Python `str.upper()` (ASCII fragment). -/
def pyUpper (s : String) : String :=
  ⟨s.data.map Char.toUpper⟩

/-- Python `str.lower()` (ASCII fragment). -/
def pyLower (s : String) : String :=
  ⟨s.data.map Char.toLower⟩

/-- Python `str.startswith(p)`. -/
def pyStartsWith (s p : String) : Bool :=
  p.data.isPrefixOf s.data

/-- `str(post.get('posted', '')).upper() != 'TRUE'` — the row
participates in grouping. -/
def isUnposted (r : Record) : Bool :=
  pyUpper r.posted != "TRUE"

/-- `post['row_index'] = i + 2` (0-based position plus the header
offset). -/
def updRec (i : Nat) (r : Record) : Record :=
  { r with row_index := some (i + 2) }

/-- The group key of an unposted row at 0-based position `i`:
`"THREAD_" + thread_id` when the trimmed `thread_id` is non-empty,
else the synthetic `f"SINGLE_{i}"`. -/
def groupKey (i : Nat) (r : Record) : String :=
  let t := pyStrip r.thread_id
  if t != "" then "THREAD_" ++ t else "SINGLE_" ++ Nat.repr i

/-- Append a row to the group `k` of an insertion-ordered group map,
creating the group at the end when absent (Python dict semantics of
`groups[group_key].append(post)`). -/
def addToGroup (gs : List (String × List Record)) (k : String) (r : Record) :
    List (String × List Record) :=
  match gs with
  | [] => [(k, [r])]
  | (k', rs) :: rest =>
    if k' = k then (k', rs ++ [r]) :: rest else (k', rs) :: addToGroup rest k r

/-- The loop body of `get_unposted_groups`, carried over the record
list with the running position `i` and the accumulated group map;
returns the records after mutation together with the final groups. -/
def gugAux : Nat → List Record → List (String × List Record) →
    List Record × List (String × List Record)
  | _, [], gs => ([], gs)
  | i, r :: rest, gs =>
    if isUnposted r then
      let r' := updRec i r
      let res := gugAux (i + 1) rest (addToGroup gs (groupKey i r) r')
      (r' :: res.1, res.2)
    else
      let res := gugAux (i + 1) rest gs
      (r :: res.1, res.2)

/-- `ThreadsBot.get_unposted_groups(records)`: first component is the
record list after the in-place `row_index` mutation, second is the
returned group map. -/
def get_unposted_groups (records : List Record) :
    List Record × List (String × List Record) :=
  gugAux 0 records []

/-- All rows of a group map, in group order. -/
def allRows (gs : List (String × List Record)) : List Record :=
  (gs.map Prod.snd).flatten

/-- The rows that grouping selects, with the mutation applied:
the unposted rows in original order, each stamped with its
`row_index`. -/
def unpostedUpd : Nat → List Record → List Record
  | _, [] => []
  | i, r :: rest =>
    if isUnposted r then updRec i r :: unpostedUpd (i + 1) rest
    else unpostedUpd (i + 1) rest

theorem allRows_cons (k : String) (rs : List Record) (tl : List (String × List Record)) :
    allRows ((k, rs) :: tl) = rs ++ allRows tl := by
  simp [allRows]

theorem allRows_addToGroup (gs : List (String × List Record)) (k : String) (r : Record) :
    List.Perm (allRows (addToGroup gs k r)) (r :: allRows gs) := by
  induction gs with
  | nil => simp [addToGroup, allRows]
  | cons hd tl ih =>
    obtain ⟨k', rs⟩ := hd
    by_cases h : k' = k
    · simp only [addToGroup, if_pos h, allRows_cons]
      have e : (rs ++ [r]) ++ allRows tl = rs ++ (r :: allRows tl) := by simp
      rw [e]
      exact List.perm_middle
    · simp only [addToGroup, if_neg h, allRows_cons]
      exact (ih.append_left rs).trans List.perm_middle

theorem allRows_gugAux (rs : List Record) :
    ∀ (i : Nat) (gs : List (String × List Record)),
      List.Perm (allRows (gugAux i rs gs).2) (allRows gs ++ unpostedUpd i rs) := by
  induction rs with
  | nil => intro i gs; simp [gugAux, unpostedUpd]
  | cons r rest ih =>
    intro i gs
    by_cases h : isUnposted r
    · simp only [gugAux, if_pos h, unpostedUpd]
      exact ((ih (i + 1) _).trans
        (((allRows_addToGroup gs _ _).append_right _).trans List.perm_middle.symm))
    · simp only [gugAux, if_neg h, unpostedUpd]
      exact ih (i + 1) gs

/-- Rows stamped from positions at or above `i` never carry a
`row_index` below `i + 2`. -/
theorem countP_unpostedUpd_lt (rs : List Record) :
    ∀ (i m : Nat), m < i →
      (unpostedUpd i rs).countP (fun r => decide (r.row_index = some (m + 2))) = 0 := by
  induction rs with
  | nil => intro i m _; simp [unpostedUpd]
  | cons r rest ih =>
    intro i m hm
    by_cases h : isUnposted r
    · simp only [unpostedUpd, if_pos h, List.countP_cons]
      have hne : (updRec i r).row_index ≠ some (m + 2) := by
        simp only [updRec]
        intro hc
        have : i = m := by
          have := Option.some.inj hc
          omega
        omega
      simp [hne, ih (i + 1) m (Nat.lt_succ_of_lt hm)]
    · simp only [unpostedUpd, if_neg h]
      exact ih (i + 1) m (Nat.lt_succ_of_lt hm)

/-- Exactly one stamped row carries `row_index = (i + d) + 2`, namely
the one produced from position `d` of the suffix — and only when that
position holds an unposted row. -/
theorem countP_unpostedUpd (rs : List Record) :
    ∀ (i d : Nat),
      (unpostedUpd i rs).countP (fun r => decide (r.row_index = some ((i + d) + 2))) =
        (if (rs[d]?.map isUnposted).getD false then 1 else 0) := by
  induction rs with
  | nil => intro i d; simp [unpostedUpd]
  | cons r rest ih =>
    intro i d
    match d with
    | 0 =>
      by_cases h : isUnposted r
      · simp only [unpostedUpd, if_pos h, List.countP_cons]
        have h0 : (unpostedUpd (i + 1) rest).countP
            (fun r => decide (r.row_index = some ((i + 0) + 2))) = 0 :=
          countP_unpostedUpd_lt rest (i + 1) (i + 0) (by omega)
        simp [h0, updRec, h]
      · simp only [unpostedUpd, if_neg h]
        have h0 : (unpostedUpd (i + 1) rest).countP
            (fun r => decide (r.row_index = some ((i + 0) + 2))) = 0 :=
          countP_unpostedUpd_lt rest (i + 1) (i + 0) (by omega)
        simpa [h] using h0
    | d' + 1 =>
      have step : (unpostedUpd (i + 1) rest).countP
            (fun r => decide (r.row_index = some (((i + 1) + d') + 2))) =
          (if (rest[d']?.map isUnposted).getD false then 1 else 0) := ih (i + 1) d'
      by_cases h : isUnposted r
      · simp only [unpostedUpd, if_pos h, List.countP_cons]
        have hne : (updRec i r).row_index ≠ some ((i + (d' + 1)) + 2) := by
          simp only [updRec]
          intro hc
          have := Option.some.inj hc
          omega
        have e : i + (d' + 1) = (i + 1) + d' := by omega
        simp only [e, step]
        simp [e ▸ hne]
      · simp only [unpostedUpd, if_neg h]
        have e : i + (d' + 1) = (i + 1) + d' := by omega
        simp only [e, step]
        simp

/-- Every row selected by the grouping loop is an unposted input row
stamped with its position. -/
theorem mem_unpostedUpd (rs : List Record) :
    ∀ (i : Nat) (r : Record), r ∈ unpostedUpd i rs →
      ∃ d r₀, rs[d]? = some r₀ ∧ isUnposted r₀ = true ∧ r = updRec (i + d) r₀ := by
  induction rs with
  | nil => intro i r hr; simp [unpostedUpd] at hr
  | cons r₁ rest ih =>
    intro i r hr
    by_cases h : isUnposted r₁
    · simp only [unpostedUpd, if_pos h, List.mem_cons] at hr
      cases hr with
      | inl hr => exact ⟨0, r₁, by simp, h, by simpa using hr⟩
      | inr hr =>
        obtain ⟨d, r₀, hd, hu, he⟩ := ih (i + 1) r hr
        exact ⟨d + 1, r₀, by simpa using hd, hu, by rw [he]; congr 1; omega⟩
    · simp only [unpostedUpd, if_neg h] at hr
      obtain ⟨d, r₀, hd, hu, he⟩ := ih (i + 1) r hr
      exact ⟨d + 1, r₀, by simpa using hd, hu, by rw [he]; congr 1; omega⟩

/-- The stamped copy of an unposted row is among the selected rows. -/
theorem updRec_mem_unpostedUpd (rs : List Record) :
    ∀ (i d : Nat) (r : Record), rs[d]? = some r → isUnposted r = true →
      updRec (i + d) r ∈ unpostedUpd i rs := by
  induction rs with
  | nil => intro i d r hd; simp at hd
  | cons r₁ rest ih =>
    intro i d r hd hu
    match d with
    | 0 =>
      have : r₁ = r := by simpa using hd
      subst this
      simp [unpostedUpd, hu]
    | d' + 1 =>
      have hd' : rest[d']? = some r := by simpa using hd
      have := ih (i + 1) d' r hd' hu
      have e : i + (d' + 1) = (i + 1) + d' := by omega
      rw [e]
      by_cases h : isUnposted r₁
      · simp only [unpostedUpd, if_pos h, List.mem_cons]
        exact Or.inr this
      · simpa only [unpostedUpd, if_neg h] using this

theorem isUnposted_iff (r : Record) : isUnposted r = true ↔ pyUpper r.posted ≠ "TRUE" := by
  simp [isUnposted]

theorem perm_allRows_unpostedUpd (records : List Record) :
    List.Perm (allRows (get_unposted_groups records).2) (unpostedUpd 0 records) := by
  have h := allRows_gugAux records 0 []
  simpa [get_unposted_groups, allRows] using h

/-- C3: for every input sequence of row records, `get_unposted_groups`
partitions exactly the unposted rows: every row whose `posted` field,
converted to string and uppercased, differs from `"TRUE"` appears in
exactly one group (its stamped copy occurs, and exactly one grouped row
carries its `row_index`), and every row whose `posted` field equals the
`"TRUE"` sentinel under any casing appears in no group. -/
theorem get_unposted_groups_partitions (records : List Record) :
    (∀ r ∈ allRows (get_unposted_groups records).2, pyUpper r.posted ≠ "TRUE") ∧
    (∀ i, (h : i < records.length) →
      pyUpper records[i].posted ≠ "TRUE" →
      updRec i records[i] ∈ allRows (get_unposted_groups records).2 ∧
      (allRows (get_unposted_groups records).2).countP
        (fun r => decide (r.row_index = some (i + 2))) = 1) := by
  have P := perm_allRows_unpostedUpd records
  constructor
  · intro r hr
    have hr' : r ∈ unpostedUpd 0 records := P.mem_iff.mp hr
    obtain ⟨d, r₀, _, hu, he⟩ := mem_unpostedUpd records 0 r hr'
    have hp : r.posted = r₀.posted := by rw [he]; rfl
    rw [hp]
    exact (isUnposted_iff r₀).mp hu
  · intro i h hne
    have hu : isUnposted records[i] = true := (isUnposted_iff records[i]).mpr hne
    constructor
    · have hget : records[i]? = some records[i] := List.getElem?_eq_getElem h
      have hm := updRec_mem_unpostedUpd records 0 i records[i] hget hu
      rw [P.mem_iff]
      simpa using hm
    · rw [P.countP_eq]
      have hc := countP_unpostedUpd records 0 i
      rw [List.getElem?_eq_getElem h] at hc
      simpa [hu] using hc

/-- Decimal value of a digit character. -/
def digitVal (c : Char) : Nat := c.toNat - 48

/-- Left-to-right decimal valuation of a character list. -/
def valAux : List Char → Nat → Nat
  | [], acc => acc
  | c :: cs, acc => valAux cs (acc * 10 + digitVal c)

theorem valAux_append (l₁ : List Char) :
    ∀ (l₂ : List Char) (acc : Nat), valAux (l₁ ++ l₂) acc = valAux l₂ (valAux l₁ acc) := by
  induction l₁ with
  | nil => intro l₂ acc; simp [valAux]
  | cons c cs ih => intro l₂ acc; simp [valAux, ih]

theorem digitVal_digitChar (k : Nat) (hk : k < 10) : digitVal (Nat.digitChar k) = k := by
  interval_cases k <;> rfl

theorem toDigitsCore_acc (b : Nat) :
    ∀ (f n : Nat) (l : List Char),
      Nat.toDigitsCore b f n l = Nat.toDigitsCore b f n [] ++ l := by
  intro f
  induction f with
  | zero => intro n l; simp [Nat.toDigitsCore]
  | succ f ih =>
    intro n l
    simp only [Nat.toDigitsCore]
    by_cases h : n / b = 0
    · simp [h]
    · simp only [if_neg h]
      rw [ih (n / b) (Nat.digitChar (n % b) :: l), ih (n / b) [Nat.digitChar (n % b)]]
      simp

theorem valAux_toDigitsCore (n : Nat) :
    ∀ (f : Nat), n < f → valAux (Nat.toDigitsCore 10 f n []) 0 = n := by
  induction n using Nat.strong_induction_on with
  | _ n ih =>
    intro f hf
    match f with
    | f' + 1 =>
      by_cases h : n / 10 = 0
      · have hn : n < 10 := by omega
        simp only [Nat.toDigitsCore, if_pos h, valAux]
        rw [digitVal_digitChar (n % 10) (by omega)]
        omega
      · have hn : 10 ≤ n := by
          by_contra hc
          exact h (Nat.div_eq_of_lt (by omega))
        simp only [Nat.toDigitsCore, if_neg h]
        rw [toDigitsCore_acc 10 f' (n / 10) [Nat.digitChar (n % 10)]]
        rw [valAux_append]
        have hdiv : n / 10 < n := Nat.div_lt_self (by omega) (by omega)
        rw [ih (n / 10) hdiv f' (by omega)]
        simp only [valAux]
        rw [digitVal_digitChar (n % 10) (by omega)]
        omega

/-- Python never prints the same decimal string for two different
naturals: `Nat.repr` is injective. -/
theorem natRepr_injective (m n : Nat) (h : Nat.repr m = Nat.repr n) : m = n := by
  have hlist : Nat.toDigits 10 m = Nat.toDigits 10 n := congrArg String.data h
  have hm := valAux_toDigitsCore m (m + 1) (by omega)
  have hn := valAux_toDigitsCore n (n + 1) (by omega)
  rw [show Nat.toDigitsCore 10 (m + 1) m [] = Nat.toDigits 10 m from rfl] at hm
  rw [show Nat.toDigitsCore 10 (n + 1) n [] = Nat.toDigits 10 n from rfl] at hn
  rw [hlist] at hm
  omega

theorem string_append_left_cancel {p a b : String} (h : p ++ a = p ++ b) : a = b := by
  have h2 := congrArg String.data h
  rw [String.data_append, String.data_append] at h2
  have h3 := List.append_cancel_left h2
  cases a; cases b; cases h3; rfl

theorem thread_key_ne_single_key (a b : String) : "THREAD_" ++ a ≠ "SINGLE_" ++ b := by
  intro h
  have h2 := congrArg String.data h
  rw [String.data_append, String.data_append] at h2
  have h3 : ['T', 'H', 'R', 'E', 'A', 'D', '_'] ++ a.data =
      ['S', 'I', 'N', 'G', 'L', 'E', '_'] ++ b.data := h2
  simp at h3

theorem single_key_inj {i m : Nat}
    (h : "SINGLE_" ++ Nat.repr i = "SINGLE_" ++ Nat.repr m) : i = m :=
  natRepr_injective i m (string_append_left_cancel h)

/-- Python `groups[k]` with a `[]` default: the rows held under key
`k` of the insertion-ordered group map. -/
def findGroup : List (String × List Record) → String → List Record
  | [], _ => []
  | (k', rs) :: rest, k => if k' = k then rs else findGroup rest k

/-- The unposted rows at positions `≥ i` whose key is `k`, stamped. -/
def filtKey (k : String) : Nat → List Record → List Record
  | _, [] => []
  | i, r :: rest =>
    if isUnposted r = true ∧ groupKey i r = k then updRec i r :: filtKey k (i + 1) rest
    else filtKey k (i + 1) rest

theorem filtKey_cons (k : String) (i : Nat) (r : Record) (rest : List Record) :
    filtKey k i (r :: rest) =
      if isUnposted r = true ∧ groupKey i r = k then updRec i r :: filtKey k (i + 1) rest
      else filtKey k (i + 1) rest := rfl

theorem findGroup_addToGroup (gs : List (String × List Record)) (k k' : String) (r : Record) :
    findGroup (addToGroup gs k r) k' =
      if k' = k then findGroup gs k ++ [r] else findGroup gs k' := by
  induction gs with
  | nil =>
    by_cases h : k' = k
    · simp [addToGroup, findGroup, h]
    · have h2 : ¬k = k' := fun hc => h hc.symm
      simp [addToGroup, findGroup, h, h2]
  | cons hd tl ih =>
    obtain ⟨k₀, rs₀⟩ := hd
    by_cases h0 : k₀ = k
    · subst h0
      by_cases h : k' = k₀
      · subst h; simp [addToGroup, findGroup]
      · have h2 : ¬k₀ = k' := fun hc => h hc.symm
        simp [addToGroup, findGroup, h, h2]
    · simp only [addToGroup, if_neg h0, findGroup]
      by_cases h : k₀ = k'
      · by_cases hk : k' = k
        · exact absurd (h.trans hk) h0
        · simp [h, hk]
      · by_cases hk : k' = k
        · subst hk; simp [ih, h, h0]
        · simp [ih, h, hk]

theorem findGroup_gugAux (rs : List Record) :
    ∀ (i : Nat) (gs : List (String × List Record)) (k : String),
      findGroup (gugAux i rs gs).2 k = findGroup gs k ++ filtKey k i rs := by
  induction rs with
  | nil => intro i gs k; simp [gugAux, filtKey]
  | cons r rest ih =>
    intro i gs k
    by_cases h : isUnposted r
    · simp only [gugAux, if_pos h]
      rw [ih (i + 1) _ k, findGroup_addToGroup, filtKey_cons]
      by_cases hk : k = groupKey i r
      · have hcond : isUnposted r = true ∧ groupKey i r = k := ⟨h, hk.symm⟩
        rw [if_pos hk, if_pos hcond, hk]
        simp
      · have hcond : ¬(isUnposted r = true ∧ groupKey i r = k) := fun hc => hk hc.2.symm
        rw [if_neg hk, if_neg hcond]
    · simp only [gugAux, if_neg h]
      rw [ih (i + 1) gs k, filtKey_cons]
      have hcond : ¬(isUnposted r = true ∧ groupKey i r = k) := fun hc => h hc.1
      rw [if_neg hcond]

def keysOf (gs : List (String × List Record)) : List String := gs.map Prod.fst

theorem keysOf_addToGroup (gs : List (String × List Record)) (k : String) (r : Record) :
    keysOf (addToGroup gs k r) =
      if k ∈ keysOf gs then keysOf gs else keysOf gs ++ [k] := by
  induction gs with
  | nil => simp [addToGroup, keysOf]
  | cons hd tl ih =>
    obtain ⟨k₀, rs₀⟩ := hd
    by_cases h0 : k₀ = k
    · subst h0
      simp [addToGroup, keysOf]
    · have hne : k ≠ k₀ := fun hc => h0 hc.symm
      have hcons : keysOf ((k₀, rs₀) :: addToGroup tl k r) = k₀ :: keysOf (addToGroup tl k r) :=
        rfl
      have hcons2 : keysOf ((k₀, rs₀) :: tl) = k₀ :: keysOf tl := rfl
      simp only [addToGroup, if_neg h0, hcons, ih, hcons2]
      by_cases hm : k ∈ keysOf tl
      · rw [if_pos hm, if_pos (List.mem_cons_of_mem k₀ hm)]
      · rw [if_neg hm, if_neg (show ¬k ∈ k₀ :: keysOf tl by simp [hne, hm])]
        simp

theorem nodup_keysOf_addToGroup (gs : List (String × List Record)) (k : String) (r : Record)
    (h : (keysOf gs).Nodup) : (keysOf (addToGroup gs k r)).Nodup := by
  rw [keysOf_addToGroup]
  by_cases hm : k ∈ keysOf gs
  · simpa [hm] using h
  · simp only [if_neg hm]
    simp [List.nodup_append, h, hm]

theorem nodup_keysOf_gugAux (rs : List Record) :
    ∀ (i : Nat) (gs : List (String × List Record)),
      (keysOf gs).Nodup → (keysOf (gugAux i rs gs).2).Nodup := by
  induction rs with
  | nil => intro i gs h; simpa [gugAux] using h
  | cons r rest ih =>
    intro i gs h
    by_cases hu : isUnposted r
    · simp only [gugAux, if_pos hu]
      exact ih (i + 1) _ (nodup_keysOf_addToGroup gs _ _ h)
    · simp only [gugAux, if_neg hu]
      exact ih (i + 1) gs h

theorem findGroup_of_mem (gs : List (String × List Record)) :
    ∀ (k : String) (rs : List Record), (keysOf gs).Nodup → (k, rs) ∈ gs →
      findGroup gs k = rs := by
  induction gs with
  | nil => intro k rs _ hm; simp at hm
  | cons hd tl ih =>
    obtain ⟨k₀, rs₀⟩ := hd
    intro k rs hnd hm
    have hnd' : (k₀ :: keysOf tl).Nodup := by simpa [keysOf] using hnd
    rcases List.mem_cons.mp hm with he | hm'
    · have hk : k = k₀ := by
        have := congrArg Prod.fst he
        simpa using this
      have hr : rs = rs₀ := by
        have := congrArg Prod.snd he
        simpa using this
      simp only [findGroup, if_pos hk.symm]
      exact hr.symm
    · have hkmem : k ∈ keysOf tl := List.mem_map.mpr ⟨(k, rs), hm', rfl⟩
      have h0 : k₀ ∉ keysOf tl := (List.nodup_cons.mp hnd').1
      have hne : ¬k₀ = k := fun hc => h0 (hc ▸ hkmem)
      simp only [findGroup, if_neg hne]
      exact ih k rs (List.nodup_cons.mp hnd').2 hm'

theorem groupKey_eq_thread {i : Nat} {r : Record} (h : pyStrip r.thread_id ≠ "") :
    groupKey i r = "THREAD_" ++ pyStrip r.thread_id := by
  simp [groupKey, h]

theorem groupKey_eq_single_iff {i m : Nat} {r : Record}
    (h : groupKey i r = "SINGLE_" ++ Nat.repr m) : pyStrip r.thread_id = "" ∧ i = m := by
  by_cases ht : pyStrip r.thread_id = ""
  · refine ⟨ht, ?_⟩
    simp only [groupKey, ht] at h
    simp at h
    exact single_key_inj h
  · rw [groupKey_eq_thread ht] at h
    exact absurd h (thread_key_ne_single_key _ _)

theorem mem_filtKey (k : String) (rs : List Record) :
    ∀ (i : Nat) (r : Record), r ∈ filtKey k i rs →
      ∃ d r₀, rs[d]? = some r₀ ∧ isUnposted r₀ = true ∧ groupKey (i + d) r₀ = k ∧
        r = updRec (i + d) r₀ := by
  induction rs with
  | nil => intro i r hr; simp [filtKey] at hr
  | cons r₁ rest ih =>
    intro i r hr
    rw [filtKey_cons] at hr
    by_cases hc : isUnposted r₁ = true ∧ groupKey i r₁ = k
    · rw [if_pos hc] at hr
      rcases List.mem_cons.mp hr with he | hm
      · exact ⟨0, r₁, by simp, hc.1, by simpa using hc.2, by simpa using he⟩
      · obtain ⟨d, r₀, hd, hu, hk, he⟩ := ih (i + 1) r hm
        refine ⟨d + 1, r₀, by simpa using hd, hu, ?_, ?_⟩
        · rw [show i + (d + 1) = (i + 1) + d from by omega]
          exact hk
        · rw [show i + (d + 1) = (i + 1) + d from by omega]
          exact he
    · rw [if_neg hc] at hr
      obtain ⟨d, r₀, hd, hu, hk, he⟩ := ih (i + 1) r hr
      refine ⟨d + 1, r₀, by simpa using hd, hu, ?_, ?_⟩
      · rw [show i + (d + 1) = (i + 1) + d from by omega]
        exact hk
      · rw [show i + (d + 1) = (i + 1) + d from by omega]
        exact he

theorem mem_filtKey_of (rs : List Record) :
    ∀ (i d : Nat) (r : Record), rs[d]? = some r → isUnposted r = true →
      ∀ (k : String), groupKey (i + d) r = k → updRec (i + d) r ∈ filtKey k i rs := by
  induction rs with
  | nil => intro i d r hd; simp at hd
  | cons r₁ rest ih =>
    intro i d r hd hu k hk
    match d with
    | 0 =>
      have : r₁ = r := by simpa using hd
      subst this
      rw [filtKey_cons, if_pos ⟨hu, by simpa using hk⟩]
      simp only [List.mem_cons]
      left
      simp
    | d' + 1 =>
      have hd' : rest[d']? = some r := by simpa using hd
      have e : i + (d' + 1) = (i + 1) + d' := by omega
      have hmem := ih (i + 1) d' r hd' hu k (by rw [← e]; exact hk)
      rw [filtKey_cons]
      by_cases hc : isUnposted r₁ = true ∧ groupKey i r₁ = k
      · rw [if_pos hc]
        exact List.mem_cons_of_mem _ (by rw [e]; exact hmem)
      · rw [if_neg hc]
        rw [e]
        exact hmem

theorem filtKey_single_empty (m : Nat) (rs : List Record) :
    ∀ (i : Nat), m < i → filtKey ("SINGLE_" ++ Nat.repr m) i rs = [] := by
  induction rs with
  | nil => intro i _; simp [filtKey]
  | cons r rest ih =>
    intro i hm
    rw [filtKey_cons]
    have hc : ¬(isUnposted r = true ∧ groupKey i r = "SINGLE_" ++ Nat.repr m) := by
      rintro ⟨-, hk⟩
      have := (groupKey_eq_single_iff hk).2
      omega
    rw [if_neg hc]
    exact ih (i + 1) (by omega)

theorem filtKey_single_len (m : Nat) (rs : List Record) :
    ∀ (i : Nat), (filtKey ("SINGLE_" ++ Nat.repr m) i rs).length ≤ 1 := by
  induction rs with
  | nil => intro i; simp [filtKey]
  | cons r rest ih =>
    intro i
    rw [filtKey_cons]
    by_cases hc : isUnposted r = true ∧ groupKey i r = "SINGLE_" ++ Nat.repr m
    · rw [if_pos hc]
      have hi : i = m := (groupKey_eq_single_iff hc.2).2
      subst hi
      rw [filtKey_single_empty i rest (i + 1) (by omega)]
      simp
    · rw [if_neg hc]
      exact ih (i + 1)

theorem eq_singleton_of_length_le_one {α : Type} {l : List α} {a : α}
    (hl : l.length ≤ 1) (ha : a ∈ l) : l = [a] := by
  match l with
  | [] => simp at ha
  | [x] =>
    have : a = x := by simpa using ha
    rw [this]
  | x :: y :: tl => simp at hl

theorem findGroup_get_unposted_groups (records : List Record) (k : String) :
    findGroup (get_unposted_groups records).2 k = filtKey k 0 records := by
  have h := findGroup_gugAux records 0 [] k
  simpa [get_unposted_groups, findGroup] using h

/-- C4: the group key of an unposted row is `"THREAD_" + thread_id`
when the trimmed `thread_id` is non-empty, and otherwise the synthetic
key `"SINGLE_" + str(position)`, distinct for every row — so all
unposted rows sharing a non-empty trimmed `thread_id` land in the one
group under that key, and a standalone row is always alone in its
group. -/
theorem groupKey_assignment (records : List Record) :
    (keysOf (get_unposted_groups records).2).Nodup ∧
    (∀ k rs, (k, rs) ∈ (get_unposted_groups records).2 → ∀ r ∈ rs,
      (pyStrip r.thread_id ≠ "" → k = "THREAD_" ++ pyStrip r.thread_id) ∧
      (pyStrip r.thread_id = "" →
        ∃ i, k = "SINGLE_" ++ Nat.repr i ∧ r.row_index = some (i + 2) ∧ rs = [r])) ∧
    (∀ i, (h : i < records.length) → isUnposted records[i] = true →
      pyStrip records[i].thread_id ≠ "" →
      updRec i records[i] ∈
        findGroup (get_unposted_groups records).2 ("THREAD_" ++ pyStrip records[i].thread_id)) := by
  have hnd : (keysOf (get_unposted_groups records).2).Nodup :=
    nodup_keysOf_gugAux records 0 [] (by simp [keysOf])
  refine ⟨hnd, ?_, ?_⟩
  · intro k rs hmem r hr
    have hrs : rs = filtKey k 0 records := by
      have h1 := findGroup_of_mem _ k rs hnd hmem
      rw [findGroup_get_unposted_groups] at h1
      exact h1.symm
    rw [hrs] at hr
    obtain ⟨d, r₀, hd, hu, hkey, he⟩ := mem_filtKey k records 0 r hr
    have htid : r.thread_id = r₀.thread_id := by rw [he]; rfl
    constructor
    · intro ht
      rw [htid] at ht
      rw [← hkey, groupKey_eq_thread ht, htid]
    · intro ht
      rw [htid] at ht
      refine ⟨d, ?_, ?_, ?_⟩
      · rw [← hkey]
        simp [groupKey, ht]
      · rw [he]
        simp [updRec]
      · have hk2 : k = "SINGLE_" ++ Nat.repr d := by
          rw [← hkey]
          simp [groupKey, ht]
        rw [hrs, hk2]
        exact eq_singleton_of_length_le_one (filtKey_single_len d records 0) (hk2 ▸ hr)
  · intro i h hu ht
    rw [findGroup_get_unposted_groups]
    have hget : records[i]? = some records[i] := List.getElem?_eq_getElem h
    have := mem_filtKey_of records 0 i records[i] hget hu
      ("THREAD_" ++ pyStrip records[i].thread_id)
      (by rw [show (0 : Nat) + i = i from by omega]; exact groupKey_eq_thread ht)
    simpa using this

/-- The record list after the grouping pass: each unposted row is
stamped in place, every other row is untouched. -/
def updAll : Nat → List Record → List Record
  | _, [] => []
  | i, r :: rest => (if isUnposted r then updRec i r else r) :: updAll (i + 1) rest

theorem gugAux_fst (rs : List Record) :
    ∀ (i : Nat) (gs : List (String × List Record)), (gugAux i rs gs).1 = updAll i rs := by
  induction rs with
  | nil => intro i gs; simp [gugAux, updAll]
  | cons r rest ih =>
    intro i gs
    by_cases h : isUnposted r
    · simp [gugAux, updAll, h, ih (i + 1)]
    · simp [gugAux, updAll, h, ih (i + 1)]

theorem updAll_getElem (rs : List Record) :
    ∀ (i d : Nat),
      (updAll i rs)[d]? = rs[d]?.map (fun r => if isUnposted r then updRec (i + d) r else r) := by
  induction rs with
  | nil => intro i d; simp [updAll]
  | cons r rest ih =>
    intro i d
    match d with
    | 0 => simp [updAll]
    | d' + 1 =>
      have := ih (i + 1) d'
      simp only [updAll, List.getElem?_cons_succ]
      rw [this, show (i + 1) + d' = i + (d' + 1) from by omega]

/-- C10: `get_unposted_groups` mutates its input records only by
setting `row_index = i + 2` on each unposted record; records whose
`posted` field is the `"TRUE"` sentinel are returned entirely
unmodified, and no other field of any record is changed or removed. -/
theorem get_unposted_groups_frame (records : List Record) :
    (get_unposted_groups records).1.length = records.length ∧
    (∀ i, (h : i < records.length) →
      (pyUpper records[i].posted = "TRUE" →
        (get_unposted_groups records).1[i]? = some records[i]) ∧
      (pyUpper records[i].posted ≠ "TRUE" →
        (get_unposted_groups records).1[i]? = some (updRec i records[i]))) ∧
    (∀ (j : Nat) (r : Record),
      (updRec j r).posted = r.posted ∧ (updRec j r).thread_id = r.thread_id ∧
      (updRec j r).thread_order = r.thread_order ∧ (updRec j r).text = r.text ∧
      (updRec j r).image_path = r.image_path ∧ (updRec j r).row_index = some (j + 2)) := by
  have hfst : (get_unposted_groups records).1 = updAll 0 records :=
    gugAux_fst records 0 []
  have hlen : ∀ (rs : List Record) (i : Nat), (updAll i rs).length = rs.length := by
    intro rs
    induction rs with
    | nil => intro i; simp [updAll]
    | cons r rest ih => intro i; simp [updAll, ih (i + 1)]
  refine ⟨by rw [hfst]; exact hlen records 0, ?_, ?_⟩
  · intro i h
    have hget := updAll_getElem records 0 i
    rw [List.getElem?_eq_getElem h] at hget
    constructor
    · intro hp
      have hu : isUnposted records[i] = false := by
        simp [isUnposted, hp]
      rw [hfst, hget]
      simp [hu]
    · intro hp
      have hu : isUnposted records[i] = true := (isUnposted_iff records[i]).mpr hp
      rw [hfst, hget]
      simp [hu]
  · intro j r
    exact ⟨rfl, rfl, rfl, rfl, rfl, rfl⟩

/-- Python `int(s)` on its sign-and-digits fragment: optional
surrounding whitespace, one optional sign, then decimal digits.
`none` models the `ValueError` raised on any other string. -/
def pyIntOfString (s : String) : Option Int :=
  let t := pyStrip s
  if t = "" then none
  else
    let cs := t.data
    let ds := if cs.head? = some '-' ∨ cs.head? = some '+' then cs.tail else cs
    if ds ≠ [] ∧ ds.all (fun c => c.isDigit) then
      let v : Nat := ds.foldl (fun acc c => acc * 10 + (c.toNat - 48)) 0
      some (if cs.head? = some '-' then -(v : Int) else (v : Int))
    else none

/-- The sort key `int(x.get('thread_order') or 0)` of one row:
a missing cell (`None`), the empty string and the integer `0` are
falsy and give `0`; other integers pass through; other strings go
through `int(...)`, which raises (`none`) on non-numeric input. -/
def pyToKey (v : Option PyVal) : Option Int :=
  match v with
  | none => some 0
  | some (PyVal.int n) => some n
  | some (PyVal.str s) => if s = "" then some 0 else pyIntOfString s

/-- Compute the sort key of every row left to right (the order Python
evaluates `key=` and hence the order a `ValueError` would surface),
pairing each key with the row's original position. -/
def keyRows : Nat → List Record → Option (List (Int × Nat × Record))
  | _, [] => some []
  | i, r :: rest =>
    match pyToKey r.thread_order, keyRows (i + 1) rest with
    | some k, some ks => some ((k, i, r) :: ks)
    | _, _ => none

/-- Lexicographic comparison on (key, original position): sorting by
it is exactly Python's stable `list.sort(key=...)`. -/
def lexLe (a b : Int × Nat × Record) : Bool :=
  decide (a.1 < b.1) || (decide (a.1 = b.1) && decide (a.2.1 ≤ b.2.1))

/-- `selected_posts.sort(key=lambda x: int(x.get('thread_order') or 0))`:
`none` models the uncaught `ValueError` (the run crashes), otherwise
the stably sorted row list. -/
def sortGroup (rows : List Record) : Option (List Record) :=
  match keyRows 0 rows with
  | none => none
  | some keyed => some ((keyed.mergeSort lexLe).map (fun p => p.2.2))

theorem keyRows_map_snd (rows : List Record) :
    ∀ (i : Nat) (keyed : List (Int × Nat × Record)), keyRows i rows = some keyed →
      keyed.map (fun p => p.2.2) = rows := by
  induction rows with
  | nil => intro i keyed h; simp [keyRows] at h; subst h; simp
  | cons r rest ih =>
    intro i keyed h
    simp only [keyRows] at h
    match hk : pyToKey r.thread_order, hr : keyRows (i + 1) rest with
    | some k, some ks =>
      rw [hk, hr] at h
      simp only [Option.some.injEq] at h
      rw [← h]
      simp [ih (i + 1) ks hr]
    | some k, none => rw [hk, hr] at h; simp at h
    | none, _ => rw [hk] at h; simp at h

theorem keyRows_key_fact (rows : List Record) :
    ∀ (i : Nat) (keyed : List (Int × Nat × Record)), keyRows i rows = some keyed →
      ∀ p ∈ keyed, pyToKey p.2.2.thread_order = some p.1 := by
  induction rows with
  | nil => intro i keyed h; simp [keyRows] at h; subst h; simp
  | cons r rest ih =>
    intro i keyed h p hp
    simp only [keyRows] at h
    match hk : pyToKey r.thread_order, hr : keyRows (i + 1) rest with
    | some k, some ks =>
      rw [hk, hr] at h
      simp only [Option.some.injEq] at h
      rw [← h] at hp
      rcases List.mem_cons.mp hp with he | hm
      · rw [he]; exact hk
      · exact ih (i + 1) ks hr p hm
    | some k, none => rw [hk, hr] at h; simp at h
    | none, _ => rw [hk] at h; simp at h

theorem keyRows_idx_ge (rows : List Record) :
    ∀ (i : Nat) (keyed : List (Int × Nat × Record)), keyRows i rows = some keyed →
      ∀ p ∈ keyed, i ≤ p.2.1 := by
  induction rows with
  | nil => intro i keyed h; simp [keyRows] at h; subst h; simp
  | cons r rest ih =>
    intro i keyed h p hp
    simp only [keyRows] at h
    match hk : pyToKey r.thread_order, hr : keyRows (i + 1) rest with
    | some k, some ks =>
      rw [hk, hr] at h
      simp only [Option.some.injEq] at h
      rw [← h] at hp
      rcases List.mem_cons.mp hp with he | hm
      · rw [he]
      · exact Nat.le_of_succ_le (ih (i + 1) ks hr p hm)
    | some k, none => rw [hk, hr] at h; simp at h
    | none, _ => rw [hk] at h; simp at h

theorem keyRows_idx_lt (rows : List Record) :
    ∀ (i : Nat) (keyed : List (Int × Nat × Record)), keyRows i rows = some keyed →
      keyed.Pairwise (fun a b => a.2.1 < b.2.1) := by
  induction rows with
  | nil => intro i keyed h; simp [keyRows] at h; subst h; simp
  | cons r rest ih =>
    intro i keyed h
    simp only [keyRows] at h
    match hk : pyToKey r.thread_order, hr : keyRows (i + 1) rest with
    | some k, some ks =>
      rw [hk, hr] at h
      simp only [Option.some.injEq] at h
      rw [← h]
      refine List.Pairwise.cons ?_ (ih (i + 1) ks hr)
      intro p hp
      exact Nat.lt_of_succ_le (keyRows_idx_ge rest (i + 1) ks hr p hp)
    | some k, none => rw [hk, hr] at h; simp at h
    | none, _ => rw [hk] at h; simp at h

theorem lexLe_iff (a b : Int × Nat × Record) :
    lexLe a b = true ↔ (a.1 < b.1 ∨ (a.1 = b.1 ∧ a.2.1 ≤ b.2.1)) := by
  simp [lexLe]

theorem lexLe_trans (a b c : Int × Nat × Record)
    (h₁ : lexLe a b = true) (h₂ : lexLe b c = true) : lexLe a c = true := by
  rw [lexLe_iff] at h₁ h₂ ⊢
  rcases h₁ with h₁ | ⟨h₁, h₁'⟩ <;> rcases h₂ with h₂ | ⟨h₂, h₂'⟩ <;>
    first
      | (left; omega)
      | (right; constructor <;> omega)

theorem lexLe_total (a b : Int × Nat × Record) : lexLe a b || lexLe b a := by
  simp only [lexLe, Bool.or_eq_true, Bool.and_eq_true, decide_eq_true_eq]
  omega

/-- C2 (amended): whenever the group sort succeeds — every row's
`thread_order` is missing, empty, an integer, or a numeric string —
the result is a permutation of the group, non-decreasing in the
integer sort key, and stable: rows with equal keys keep their original
relative order.  (The unamended claim is refuted by
`sortGroup_fails_on_nonnumeric`: a non-numeric string key raises.) -/
theorem sortGroup_sorted_stable (rows out : List Record) (h : sortGroup rows = some out) :
    List.Perm out rows ∧
    out.Pairwise (fun r₁ r₂ => ∀ k₁ k₂, pyToKey r₁.thread_order = some k₁ →
      pyToKey r₂.thread_order = some k₂ → k₁ ≤ k₂) ∧
    ∀ k : Int, out.filter (fun r => pyToKey r.thread_order == some k) =
      rows.filter (fun r => pyToKey r.thread_order == some k) := by
  obtain ⟨keyed, hk, hout⟩ : ∃ keyed, keyRows 0 rows = some keyed ∧
      out = (keyed.mergeSort lexLe).map (fun p => p.2.2) := by
    unfold sortGroup at h
    match hkr : keyRows 0 rows with
    | none => rw [hkr] at h; simp at h
    | some keyed =>
      rw [hkr] at h
      exact ⟨keyed, rfl, by simpa using h.symm⟩
  have hperm : List.Perm (keyed.mergeSort lexLe) keyed := List.mergeSort_perm keyed lexLe
  have key_fact := keyRows_key_fact rows 0 keyed hk
  have key_fact_sorted : ∀ p ∈ keyed.mergeSort lexLe, pyToKey p.2.2.thread_order = some p.1 :=
    fun p hp => key_fact p (hperm.mem_iff.mp hp)
  have idxlt := keyRows_idx_lt rows 0 keyed hk
  have hrows := keyRows_map_snd rows 0 keyed hk
  have hsorted : (keyed.mergeSort lexLe).Pairwise (fun a b => lexLe a b = true) := by
    exact List.sorted_mergeSort lexLe_trans lexLe_total keyed
  refine ⟨?_, ?_, ?_⟩
  · rw [hout, ← hrows]
    exact hperm.map _
  · rw [hout, List.pairwise_map]
    refine hsorted.imp_of_mem ?_
    intro a b ha hb hab k₁ k₂ h₁ h₂
    have ka := key_fact_sorted a ha
    have kb := key_fact_sorted b hb
    rw [ka] at h₁
    rw [kb] at h₂
    have e₁ : k₁ = a.1 := (Option.some.inj h₁).symm
    have e₂ : k₂ = b.1 := (Option.some.inj h₂).symm
    rw [lexLe_iff] at hab
    omega
  · intro k
    have hfm₁ : out.filter (fun r => pyToKey r.thread_order == some k) =
        ((keyed.mergeSort lexLe).filter
          ((fun r => pyToKey r.thread_order == some k) ∘ (fun p : Int × Nat × Record => p.2.2))).map
          (fun p => p.2.2) := by
      rw [hout, List.filter_map]
    have hfm₂ : rows.filter (fun r => pyToKey r.thread_order == some k) =
        (keyed.filter
          ((fun r => pyToKey r.thread_order == some k) ∘ (fun p : Int × Nat × Record => p.2.2))).map
          (fun p => p.2.2) := by
      rw [← hrows, List.filter_map]
    rw [hfm₁, hfm₂]
    congr 1
    have permF := hperm.filter
      ((fun r => pyToKey r.thread_order == some k) ∘ (fun p : Int × Nat × Record => p.2.2))
    have hkey_of_mem : ∀ p, p ∈ keyed → (pyToKey p.2.2.thread_order == some k) = true → p.1 = k := by
      intro p hp hq
      have := key_fact p hp
      rw [this] at hq
      simpa using hq
    have hsortedF : ((keyed.mergeSort lexLe).filter
        ((fun r => pyToKey r.thread_order == some k) ∘ (fun p : Int × Nat × Record => p.2.2))).Pairwise
        (fun a b => lexLe a b = true) := hsorted.sublist (List.filter_sublist _)
    have hne : (keyed.mergeSort lexLe).Pairwise (fun a b => a.2.1 ≠ b.2.1) := by
      have h1 : keyed.Pairwise (fun a b => a.2.1 ≠ b.2.1) :=
        idxlt.imp (fun hab => Nat.ne_of_lt hab)
      exact (hperm.pairwise_iff (fun hxy => Ne.symm hxy)).mpr h1
    have hneF : ((keyed.mergeSort lexLe).filter
        ((fun r => pyToKey r.thread_order == some k) ∘ (fun p : Int × Nat × Record => p.2.2))).Pairwise
        (fun a b => a.2.1 ≠ b.2.1) :=
      hne.sublist (List.filter_sublist _)
    have hltF : ((keyed.mergeSort lexLe).filter
        ((fun r => pyToKey r.thread_order == some k) ∘ (fun p : Int × Nat × Record => p.2.2))).Pairwise
        (fun a b => a.2.1 < b.2.1) := by
      refine (hsortedF.and hneF).imp_of_mem ?_
      intro a b ha hb hab
      have hamem := List.mem_filter.mp ha
      have hbmem := List.mem_filter.mp hb
      have hak : a.1 = k := hkey_of_mem a (hperm.mem_iff.mp hamem.1) hamem.2
      have hbk : b.1 = k := hkey_of_mem b (hperm.mem_iff.mp hbmem.1) hbmem.2
      obtain ⟨hab1, hab2⟩ := hab
      rw [lexLe_iff] at hab1
      omega
    have hltK : (keyed.filter
        ((fun r => pyToKey r.thread_order == some k) ∘ (fun p : Int × Nat × Record => p.2.2))).Pairwise
        (fun a b => a.2.1 < b.2.1) := idxlt.sublist (List.filter_sublist _)
    haveI : IsAntisymm (Int × Nat × Record) (fun a b => a.2.1 < b.2.1) :=
      ⟨fun a b h1 h2 => (Nat.lt_asymm h1 h2).elim⟩
    exact List.eq_of_perm_of_sorted permF hltF hltK

/-- C2 counterexample: the claim says a non-numeric `thread_order`
string is treated as 0 and the sort never fails; in the code
`int(x.get('thread_order') or 0)` raises `ValueError` on the truthy
non-numeric string "abc", so the sort fails on this one-row group. -/
theorem sortGroup_fails_on_nonnumeric :
    sortGroup [{ thread_order := some (PyVal.str "abc") }] = none := by decide

/-- `video_extensions` of `ThreadsBot.is_video_file`. -/
def video_extensions : List String := [".mp4", ".mov", ".avi", ".mkv", ".flv", ".wmv"]

/-- Python `rfind`: index of the last occurrence of `c`, `-1` when
absent. -/
def lastIdxOf (l : List Char) (c : Char) : Int :=
  (l.foldl (fun (st : Int × Int) ch => (st.1 + 1, if ch = c then st.1 else st.2)) (0, -1)).2

/-- `os.path.splitext(p)[1]` (POSIX rules): the suffix starting at the
last dot of the final path component, unless that component consists
only of leading dots up to it. -/
def splitextExtAux (l : List Char) : List Char :=
  let sep := lastIdxOf l '/'
  let dot := lastIdxOf l '.'
  if sep < dot ∧ (List.range l.length).any
      (fun j => decide (sep < (j : Int)) && decide ((j : Int) < dot) && decide (l[j]? ≠ some '.'))
  then l.drop dot.toNat
  else []

def splitextExt (s : String) : String :=
  ⟨splitextExtAux s.data⟩

/-- `ThreadsBot.is_video_file`: the extension of the lower-cased path
is looked up in the fixed extension list. -/
def is_video_file (file_path : String) : Bool :=
  video_extensions.contains (splitextExt (pyLower file_path))

/-- `ThreadsBot.has_valid_media`: `None` and the empty string are
rejected, then the value is stripped and rejected when empty. -/
def has_valid_media : Option String → Bool
  | none => false
  | some s =>
    if s = "" then false
    else if (pyStrip s).data.length = 0 then false
    else true

/-- `ThreadsBot.upload_media_to_cloudinary`, with the filesystem check
and the Cloudinary call abstracted as oracles; `none` models both the
missing-file early return and the caught upload exception (the source
returns `(None, None)` in both cases). -/
def upload_media_to_cloudinary (fsExists : String → Bool) (upload : String → Option String)
    (media_path : String) : Option (String × String) :=
  if fsExists media_path = false then none
  else
    match upload media_path with
    | some url => some (url, if is_video_file media_path then "VIDEO" else "IMAGE")
    | none => none

/-- The media-resolution prelude of `ThreadsBot.post_to_threads`:
the `(media_url, media_type)` pair (or `none`) that decides the
container parameters. -/
def resolveMedia (fsExists : String → Bool) (upload : String → Option String)
    (media_path : Option String) : Option (String × String) :=
  if has_valid_media media_path then
    let p := pyStrip (media_path.getD "")
    if pyStartsWith p "http" then
      some (p, if is_video_file p then "VIDEO" else "IMAGE")
    else
      upload_media_to_cloudinary fsExists upload p
  else none

/-- The container-creation parameters built by
`ThreadsBot.post_to_threads` (access token omitted): media parameters
are attached only when both URL and type were resolved, otherwise
`media_type` is `"TEXT"`. -/
def post_to_threads_params (fsExists : String → Bool) (upload : String → Option String)
    (text : String) (media_path : Option String) : List (String × String) :=
  match resolveMedia fsExists upload media_path with
  | some (url, mtype) =>
    [("text", text), ("media_type", mtype),
     (if mtype = "VIDEO" then ("video_url", url) else ("image_url", url))]
  | none => [("text", text), ("media_type", "TEXT")]

/-- The spec's words, for comparison only: a media value "beginning
with a known URL scheme", read as an explicit `http://` or `https://`
scheme. The code instead tests the bare prefix `"http"`. -/
def spec_recognizedURLScheme (s : String) : Bool :=
  pyStartsWith s "http://" || pyStartsWith s "https://"

/-- C8 counterexample: `"httpcat.jpg"` begins with no URL scheme, is a
valid non-empty media path, and yet is used as the media URL as-is —
it is never passed to the upload step (the upload oracle's answer is
ignored), contradicting "every other non-empty path is passed to the
Media Resolver upload step". -/
theorem media_url_check_counterexample :
    spec_recognizedURLScheme "httpcat.jpg" = false ∧
    has_valid_media (some "httpcat.jpg") = true ∧
    resolveMedia (fun _ => true) (fun _ => some "https://res.cloudinary.com/x.jpg")
        (some "httpcat.jpg") = some ("httpcat.jpg", "IMAGE") ∧
    upload_media_to_cloudinary (fun _ => true)
        (fun _ => some "https://res.cloudinary.com/x.jpg") "httpcat.jpg" =
      some ("https://res.cloudinary.com/x.jpg", "IMAGE") ∧
    ("httpcat.jpg", "IMAGE") ≠ ("https://res.cloudinary.com/x.jpg", "IMAGE") := by
  refine ⟨by decide, by decide, by decide, by decide, by decide⟩

/-- C8 (amended): a path is classified as video exactly when the
extension of its lower-cased form is one of the six fixed extensions;
a valid media path whose stripped form starts with the literal prefix
`"http"` (covering the `http://`/`https://` schemes, but also any
other value starting with these four letters) is used as the media URL
as-is, independent of the upload collaborators; every other valid
media path goes through the Cloudinary upload step. -/
theorem media_classification (p : String) (fsExists : String → Bool)
    (upload : String → Option String) :
    (is_video_file p = true ↔
      (splitextExt (pyLower p) = ".mp4" ∨ splitextExt (pyLower p) = ".mov" ∨
       splitextExt (pyLower p) = ".avi" ∨ splitextExt (pyLower p) = ".mkv" ∨
       splitextExt (pyLower p) = ".flv" ∨ splitextExt (pyLower p) = ".wmv")) ∧
    (has_valid_media (some p) = true → pyStartsWith (pyStrip p) "http" = true →
      resolveMedia fsExists upload (some p) =
        some (pyStrip p, if is_video_file (pyStrip p) then "VIDEO" else "IMAGE")) ∧
    (has_valid_media (some p) = true → pyStartsWith (pyStrip p) "http" = false →
      resolveMedia fsExists upload (some p) =
        upload_media_to_cloudinary fsExists upload (pyStrip p)) := by
  refine ⟨?_, ?_, ?_⟩
  · simp [is_video_file, video_extensions, List.contains, List.elem_iff]
  · intro h1 h2
    simp [resolveMedia, h1, h2]
  · intro h1 h2
    simp [resolveMedia, h1, h2]

/-- C9: when the valid local media path does not exist on disk or its
upload fails, the container request is still built — as a text-only
post (`media_type = "TEXT"`, no media URL parameter) — rather than the
row or the run being aborted. -/
theorem missing_media_falls_back_to_text (fsExists : String → Bool)
    (upload : String → Option String) (text : String) (p : String)
    (hvalid : has_valid_media (some p) = true)
    (hlocal : pyStartsWith (pyStrip p) "http" = false)
    (hfail : fsExists (pyStrip p) = false ∨ upload (pyStrip p) = none) :
    post_to_threads_params fsExists upload text (some p) =
      [("text", text), ("media_type", "TEXT")] := by
  unfold post_to_threads_params resolveMedia upload_media_to_cloudinary
  rcases hfail with hf | hf
  · simp [hvalid, hlocal, hf]
  · by_cases he : fsExists (pyStrip p) = false
    · simp [hvalid, hlocal, he]
    · simp [hvalid, hlocal, he, hf]

/-- One observable event of the publish loop of `ThreadsBot.run`:
a root publish attempt, a reply publish attempt (with the
`reply_to_id` it was given), or an `update_cell` write. -/
inductive Ev where
  | rootCall (row : Nat)
  | replyCall (parent : String) (row : Nat)
  | cellWrite (row : Nat) (col : Nat) (val : String)
deriving DecidableEq

/-- `post['row_index']` of a selected row (always set by grouping). -/
def rowIdx (r : Record) : Nat := r.row_index.getD 0

/-- The publish loop of `ThreadsBot.run` over the selected group,
with `post_to_threads` and `post_reply` abstracted as oracles
(`none` = failed publish).  The trace lists publish attempts and sheet
writes in program order; a `break` simply ends the trace.  Exactly as
in the source, `previous_thread_id` is bound on root success and never
reassigned afterwards: the recursive call after a successful reply
passes `prev` through unchanged. -/
def run_publish_loop (rootRes : Record → Option String)
    (replyRes : String → Record → Option String) :
    List Record → Nat → Option String → List Ev
  | [], _, _ => []
  | r :: rest, idx, prev =>
    if idx = 0 then
      match rootRes r with
      | some tid =>
        Ev.rootCall (rowIdx r) :: Ev.cellWrite (rowIdx r) 3 "TRUE" ::
          Ev.cellWrite (rowIdx r) 6 tid ::
          run_publish_loop rootRes replyRes rest (idx + 1) (some tid)
      | none => [Ev.rootCall (rowIdx r)]
    else
      match prev with
      | none => []
      | some p =>
        match replyRes p r with
        | some rid =>
          Ev.replyCall p (rowIdx r) :: Ev.cellWrite (rowIdx r) 3 "TRUE" ::
            Ev.cellWrite (rowIdx r) 6 rid ::
            run_publish_loop rootRes replyRes rest (idx + 1) prev
        | none => [Ev.replyCall p (rowIdx r)]

/-- C1 counterexample: group [A, B, C] where A publishes as `X1` and
B's reply publishes as `X2`.  The claim says C's reply then references
`X2`; the trace shows B's success was recorded (`X2` written to
row 3), yet C's reply call references `X1`, and no reply referencing
`X2` occurs at all. -/
theorem reply_chain_counterexample :
    run_publish_loop (fun _ => some "X1")
        (fun _ r => if rowIdx r = 3 then some "X2" else some "X3")
        [{ text := "A", row_index := some 2 },
         { text := "B", row_index := some 3 },
         { text := "C", row_index := some 4 }] 0 none =
      [Ev.rootCall 2, Ev.cellWrite 2 3 "TRUE", Ev.cellWrite 2 6 "X1",
       Ev.replyCall "X1" 3, Ev.cellWrite 3 3 "TRUE", Ev.cellWrite 3 6 "X2",
       Ev.replyCall "X1" 4, Ev.cellWrite 4 3 "TRUE", Ev.cellWrite 4 6 "X3"] ∧
    Ev.replyCall "X2" 4 ∉
      [Ev.rootCall 2, Ev.cellWrite 2 3 "TRUE", Ev.cellWrite 2 6 "X1",
       Ev.replyCall "X1" 3, Ev.cellWrite 3 3 "TRUE", Ev.cellWrite 3 6 "X2",
       Ev.replyCall "X1" 4, Ev.cellWrite 4 3 "TRUE", Ev.cellWrite 4 6 "X3"] := by
  refine ⟨by decide, by decide⟩

theorem replyCall_parent_fixed (rootRes : Record → Option String)
    (replyRes : String → Record → Option String) (rs : List Record) :
    ∀ (idx : Nat) (t : String), idx ≠ 0 →
      ∀ (p : String) (i : Nat),
        Ev.replyCall p i ∈ run_publish_loop rootRes replyRes rs idx (some t) → p = t := by
  induction rs with
  | nil => intro idx t hidx p i hm; simp [run_publish_loop] at hm
  | cons r rest ih =>
    intro idx t hidx p i hm
    simp only [run_publish_loop, if_neg hidx] at hm
    match hr : replyRes t r with
    | some rid =>
      rw [hr] at hm
      rcases List.mem_cons.mp hm with he | hm'
      · injection he with h1 h2
      · rcases List.mem_cons.mp hm' with he2 | hm2
        · exact absurd he2 (by simp)
        · rcases List.mem_cons.mp hm2 with he3 | hm3
          · exact absurd he3 (by simp)
          · exact ih (idx + 1) t (by omega) p i hm3
    | none =>
      rw [hr] at hm
      have he : Ev.replyCall p i = Ev.replyCall t (rowIdx r) := by simpa using hm
      injection he with h1 h2

/-- C1 (amended): `previous_thread_id` is bound by the successful root
publish and never reassigned after a reply — so every reply in the
group references the root post's id `X1`, not the immediately
preceding reply's id.  (The claim as frozen is refuted by
`reply_chain_counterexample`.) -/
theorem replies_reference_root (rootRes : Record → Option String)
    (replyRes : String → Record → Option String) (r₀ : Record) (rest : List Record)
    (tid : String) (hroot : rootRes r₀ = some tid) :
    ∀ (p : String) (i : Nat),
      Ev.replyCall p i ∈ run_publish_loop rootRes replyRes (r₀ :: rest) 0 none →
      p = tid := by
  intro p i hm
  simp only [run_publish_loop, if_pos rfl, hroot] at hm
  rcases List.mem_cons.mp hm with he | hm1
  · exact absurd he (by simp)
  · rcases List.mem_cons.mp hm1 with he | hm2
    · exact absurd he (by simp)
    · rcases List.mem_cons.mp hm2 with he | hm3
      · exact absurd he (by simp)
      · exact replyCall_parent_fixed rootRes replyRes rest 1 tid (by omega) p i hm3

/-- C6: if the root publish of the selected group fails, the loop
stops after that single attempt: no subsequent row is attempted and no
cell of the sheet is written — the group's rows keep their state. -/
theorem root_failure_aborts_group (rootRes : Record → Option String)
    (replyRes : String → Record → Option String) (r₀ : Record) (rest : List Record)
    (hroot : rootRes r₀ = none) :
    run_publish_loop rootRes replyRes (r₀ :: rest) 0 none = [Ev.rootCall (rowIdx r₀)] := by
  simp [run_publish_loop, hroot]

/-- Publish attempts in a trace. -/
def isCall : Ev → Bool
  | Ev.rootCall _ => true
  | Ev.replyCall _ _ => true
  | Ev.cellWrite _ _ _ => false

/-- The sheet row an event concerns. -/
def evRow : Ev → Nat
  | Ev.rootCall i => i
  | Ev.replyCall _ i => i
  | Ev.cellWrite i _ _ => i

theorem col3_writes_are_true (rootRes : Record → Option String)
    (replyRes : String → Record → Option String) (rs : List Record) :
    ∀ (idx : Nat) (prev : Option String) (i : Nat) (v : String),
      Ev.cellWrite i 3 v ∈ run_publish_loop rootRes replyRes rs idx prev → v = "TRUE" := by
  induction rs with
  | nil => intro idx prev i v hm; simp [run_publish_loop] at hm
  | cons r rest ih =>
    intro idx prev i v hm
    by_cases hidx : idx = 0
    · rw [hidx] at hm
      simp only [run_publish_loop, if_pos rfl] at hm
      match hr : rootRes r with
      | some tid =>
        rw [hr] at hm
        rcases List.mem_cons.mp hm with he | hm1
        · exact absurd he (by simp)
        · rcases List.mem_cons.mp hm1 with he | hm2
          · injection he with h1 h2 h3
          · rcases List.mem_cons.mp hm2 with he | hm3
            · injection he with h1 h2 h3
              omega
            · exact ih 1 (some tid) i v hm3
      | none =>
        rw [hr] at hm
        have := List.mem_singleton.mp hm
        exact absurd this (by simp)
    · rcases prev with _ | t
      · simp [run_publish_loop, if_neg hidx] at hm
      · simp only [run_publish_loop, if_neg hidx] at hm
        match hr : replyRes t r with
        | some rid =>
          rw [hr] at hm
          rcases List.mem_cons.mp hm with he | hm1
          · exact absurd he (by simp)
          · rcases List.mem_cons.mp hm1 with he | hm2
            · injection he with h1 h2 h3
            · rcases List.mem_cons.mp hm2 with he | hm3
              · injection he with h1 h2 h3
                omega
              · exact ih (idx + 1) (some t) i v hm3
        | none =>
          rw [hr] at hm
          have := List.mem_singleton.mp hm
          exact absurd this (by simp)

theorem run_publish_loop_blocks (rootRes : Record → Option String)
    (replyRes : String → Record → Option String) (rs : List Record) :
    ∀ (idx : Nat) (prev : Option String),
      ∃ blocks : List (List Ev),
        run_publish_loop rootRes replyRes rs idx prev = blocks.flatten ∧
        (∀ b ∈ blocks, ∃ e, isCall e = true ∧
          (b = [e] ∨ ∃ v, b = [e, Ev.cellWrite (evRow e) 3 "TRUE", Ev.cellWrite (evRow e) 6 v])) ∧
        (∀ b ∈ blocks.dropLast, ∃ e v, isCall e = true ∧
          b = [e, Ev.cellWrite (evRow e) 3 "TRUE", Ev.cellWrite (evRow e) 6 v]) := by
  induction rs with
  | nil =>
    intro idx prev
    exact ⟨[], by simp [run_publish_loop], by simp, by simp⟩
  | cons r rest ih =>
    intro idx prev
    by_cases hidx : idx = 0
    · subst hidx
      match hr : rootRes r with
      | some tid =>
        obtain ⟨bs, hfl, hall, hinit⟩ := ih 1 (some tid)
        refine ⟨[Ev.rootCall (rowIdx r), Ev.cellWrite (rowIdx r) 3 "TRUE",
          Ev.cellWrite (rowIdx r) 6 tid] :: bs, ?_, ?_, ?_⟩
        · simp only [run_publish_loop, if_pos rfl, hr, List.flatten_cons, ← hfl]
          simp
        · intro b hb
          rcases List.mem_cons.mp hb with he | hm
          · exact ⟨Ev.rootCall (rowIdx r), rfl, Or.inr ⟨tid, by rw [he]; rfl⟩⟩
          · exact hall b hm
        · intro b hb
          match bs with
          | [] => simp at hb
          | b₀ :: bs' =>
            rw [List.dropLast_cons₂] at hb
            rcases List.mem_cons.mp hb with he | hm
            · exact ⟨Ev.rootCall (rowIdx r), tid, rfl, by rw [he]; rfl⟩
            · exact hinit b (by simpa using hm)
      | none =>
        refine ⟨[[Ev.rootCall (rowIdx r)]], ?_, ?_, ?_⟩
        · simp [run_publish_loop, hr]
        · intro b hb
          have : b = [Ev.rootCall (rowIdx r)] := by simpa using hb
          exact ⟨Ev.rootCall (rowIdx r), rfl, Or.inl this⟩
        · simp
    · rcases prev with _ | t
      · exact ⟨[], by simp [run_publish_loop, if_neg hidx], by simp, by simp⟩
      · match hr : replyRes t r with
        | some rid =>
          obtain ⟨bs, hfl, hall, hinit⟩ := ih (idx + 1) (some t)
          refine ⟨[Ev.replyCall t (rowIdx r), Ev.cellWrite (rowIdx r) 3 "TRUE",
            Ev.cellWrite (rowIdx r) 6 rid] :: bs, ?_, ?_, ?_⟩
          · simp only [run_publish_loop, if_neg hidx, hr, List.flatten_cons, ← hfl]
            simp
          · intro b hb
            rcases List.mem_cons.mp hb with he | hm
            · exact ⟨Ev.replyCall t (rowIdx r), rfl, Or.inr ⟨rid, by rw [he]; rfl⟩⟩
            · exact hall b hm
          · intro b hb
            match bs with
            | [] => simp at hb
            | b₀ :: bs' =>
              rw [List.dropLast_cons₂] at hb
              rcases List.mem_cons.mp hb with he | hm
              · exact ⟨Ev.replyCall t (rowIdx r), rid, rfl, by rw [he]; rfl⟩
              · exact hinit b (by simpa using hm)
        | none =>
          refine ⟨[[Ev.replyCall t (rowIdx r)]], ?_, ?_, ?_⟩
          · simp [run_publish_loop, if_neg hidx, hr]
          · intro b hb
            have : b = [Ev.replyCall t (rowIdx r)] := by simpa using hb
            exact ⟨Ev.replyCall t (rowIdx r), rfl, Or.inl this⟩
          · simp

/-- C7: the trace of the publish loop decomposes into per-row blocks:
every publish attempt is immediately followed by its own two
completion writes (`posted = TRUE` in column 3, then the returned id
in column 6) before any further row is attempted — only the final
block may be a bare failed attempt — and the loop never writes
anything but `"TRUE"` to the posted column, so rows already marked in
an aborted group stay marked. -/
theorem completion_written_immediately (rootRes : Record → Option String)
    (replyRes : String → Record → Option String) (rows : List Record) :
    (∃ blocks : List (List Ev),
      run_publish_loop rootRes replyRes rows 0 none = blocks.flatten ∧
      (∀ b ∈ blocks, ∃ e, isCall e = true ∧
        (b = [e] ∨ ∃ v, b = [e, Ev.cellWrite (evRow e) 3 "TRUE", Ev.cellWrite (evRow e) 6 v])) ∧
      (∀ b ∈ blocks.dropLast, ∃ e v, isCall e = true ∧
        b = [e, Ev.cellWrite (evRow e) 3 "TRUE", Ev.cellWrite (evRow e) 6 v])) ∧
    (∀ (i : Nat) (v : String),
      Ev.cellWrite i 3 v ∈ run_publish_loop rootRes replyRes rows 0 none → v = "TRUE") :=
  ⟨run_publish_loop_blocks rootRes replyRes rows 0 none,
   col3_writes_are_true rootRes replyRes rows 0 none⟩

theorem updAll_length (rs : List Record) : ∀ (i : Nat), (updAll i rs).length = rs.length := by
  induction rs with
  | nil => intro i; simp [updAll]
  | cons r rest ih => intro i; simp [updAll, ih (i + 1)]

theorem gug_fst_length (records : List Record) :
    (get_unposted_groups records).1.length = records.length := by
  simp only [get_unposted_groups, gugAux_fst records 0 []]
  exact updAll_length records 0

theorem isUnposted_reset (r : Record) : isUnposted { r with posted := "FALSE" } = true := by
  show (pyUpper "FALSE" != "TRUE") = true
  decide

/-- The Load step of `ThreadsBot.run`: the one spreadsheet read, the
possible full reset, and the groups the rest of the run works with. -/
structure LoadResult where
  bulkWrites : List (String × List (List String))
  finalRecords : List Record
  groups : List (String × List Record)
  nothingToDo : Bool
deriving DecidableEq

/-- The Load step of `ThreadsBot.run`: compute the unposted groups;
when none exist and the table is non-empty, bulk-write `"FALSE"` over
`C2:C{n+1}`, flip `posted` on the in-memory rows and recompute the
groups from that copy (no second read); `nothingToDo` is the final
`if not post_groups` check that ends the run with "nothing to do". -/
def run_load (all_posts : List Record) : LoadResult :=
  let first := get_unposted_groups all_posts
  if first.2.isEmpty then
    let row_count := all_posts.length
    if 0 < row_count then
      let w := ("C2:C" ++ Nat.repr (row_count + 1), List.replicate row_count ["FALSE"])
      let reset := first.1.map (fun r => { r with posted := "FALSE" })
      let second := get_unposted_groups reset
      { bulkWrites := [w], finalRecords := second.1, groups := second.2,
        nothingToDo := second.2.isEmpty }
    else
      { bulkWrites := [], finalRecords := first.1, groups := first.2, nothingToDo := true }
  else
    { bulkWrites := [], finalRecords := first.1, groups := first.2, nothingToDo := false }

/-- C5: when the computed groups are empty on a non-empty table, the
Load step issues exactly one bulk write of `"FALSE"` over rows
2..n+1 of the posted column, recomputes the groups from the in-memory
reset copy, every row is again eligible (exactly one grouped row per
table row), and the run proceeds; with an empty table the run ends
with nothing to do, without any write; and when groups are non-empty
no reset happens at all. -/
theorem run_load_reset_spec (all_posts : List Record) :
    ((get_unposted_groups all_posts).2 = [] → all_posts ≠ [] →
      (run_load all_posts).bulkWrites =
        [("C2:C" ++ Nat.repr (all_posts.length + 1),
          List.replicate all_posts.length ["FALSE"])] ∧
      (run_load all_posts).groups =
        (get_unposted_groups ((get_unposted_groups all_posts).1.map
          (fun r => { r with posted := "FALSE" }))).2 ∧
      (run_load all_posts).nothingToDo = false ∧
      (∀ i, i < all_posts.length →
        (allRows (run_load all_posts).groups).countP
          (fun r => decide (r.row_index = some (i + 2))) = 1)) ∧
    (all_posts = [] →
      run_load all_posts =
        { bulkWrites := [], finalRecords := [], groups := [], nothingToDo := true }) ∧
    ((get_unposted_groups all_posts).2 ≠ [] →
      (run_load all_posts).bulkWrites = [] ∧
      (run_load all_posts).groups = (get_unposted_groups all_posts).2) := by
  refine ⟨?_, ?_, ?_⟩
  · intro h1 h2
    have hlen : 0 < all_posts.length := List.length_pos.mpr h2
    have hreset : ∀ i, i < all_posts.length →
        (allRows (get_unposted_groups ((get_unposted_groups all_posts).1.map
          (fun r => { r with posted := "FALSE" }))).2).countP
          (fun r => decide (r.row_index = some (i + 2))) = 1 := by
      intro i hi
      set rs := (get_unposted_groups all_posts).1.map (fun r => { r with posted := "FALSE" })
        with hrs
      have hlen2 : rs.length = all_posts.length := by
        rw [hrs, List.length_map, gug_fst_length]
      have hget : ∃ r, rs[i]? = some r ∧ isUnposted r = true := by
        have hi2 : i < (get_unposted_groups all_posts).1.length := by
          rw [gug_fst_length]; exact hi
        refine ⟨{ (get_unposted_groups all_posts).1[i] with posted := "FALSE" }, ?_, ?_⟩
        · rw [hrs, List.getElem?_map, List.getElem?_eq_getElem hi2]
          rfl
        · exact isUnposted_reset _
      obtain ⟨r, hr, hu⟩ := hget
      have hP := perm_allRows_unpostedUpd rs
      rw [hP.countP_eq]
      have hc := countP_unpostedUpd rs 0 i
      rw [hr] at hc
      simpa [hu] using hc
    have hempty : (get_unposted_groups all_posts).2.isEmpty = true := by
      rw [h1]; rfl
    have hne : (get_unposted_groups ((get_unposted_groups all_posts).1.map
        (fun r => { r with posted := "FALSE" }))).2 ≠ [] := by
      intro hc
      have := hreset 0 hlen
      rw [hc] at this
      simp [allRows] at this
    refine ⟨?_, ?_, ?_, ?_⟩
    · simp [run_load, hempty, hlen]
    · simp [run_load, hempty, hlen]
    · have hgoal : (run_load all_posts).nothingToDo =
          (get_unposted_groups ((get_unposted_groups all_posts).1.map
            (fun r => { r with posted := "FALSE" }))).2.isEmpty := by
        simp [run_load, hempty, hlen]
      rw [hgoal, ← Bool.not_eq_true, List.isEmpty_iff]
      exact hne
    · intro i hi
      have heq : (run_load all_posts).groups =
          (get_unposted_groups ((get_unposted_groups all_posts).1.map
            (fun r => { r with posted := "FALSE" }))).2 := by
        simp [run_load, hempty, hlen]
      rw [heq]
      exact hreset i hi
  · intro h
    subst h
    rfl
  · intro h
    have hempty : (get_unposted_groups all_posts).2.isEmpty = false := by
      simpa [List.isEmpty_iff] using h
    constructor
    · simp only [run_load, hempty]
      rfl
    · simp only [run_load, hempty]
      rfl

theorem replies_reference_root_witness :
    Ev.replyCall "X1" 4 ∈ run_publish_loop (fun _ => some "X1") (fun _ _ => some "Y")
      [{ text := "A", row_index := some 2 }, { text := "B", row_index := some 3 },
       { text := "C", row_index := some 4 }] 0 none ∧
    ("X1" : String) = "X1" :=
  ⟨by decide,
   replies_reference_root (fun _ => some "X1") (fun _ _ => some "Y")
     { text := "A", row_index := some 2 }
     [{ text := "B", row_index := some 3 }, { text := "C", row_index := some 4 }]
     "X1" rfl "X1" 4 (by decide)⟩

theorem sortGroup_sorted_stable_witness :
    sortGroup [{ text := "A", thread_order := some (PyVal.int 2) },
               { text := "B", thread_order := some (PyVal.int 1) }] =
      some [{ text := "B", thread_order := some (PyVal.int 1) },
            { text := "A", thread_order := some (PyVal.int 2) }] ∧
    List.Perm
      [({ text := "B", thread_order := some (PyVal.int 1) } : Record),
       { text := "A", thread_order := some (PyVal.int 2) }]
      [{ text := "A", thread_order := some (PyVal.int 2) },
       { text := "B", thread_order := some (PyVal.int 1) }] := by
  have hs : sortGroup [{ text := "A", thread_order := some (PyVal.int 2) },
               { text := "B", thread_order := some (PyVal.int 1) }] =
      some [{ text := "B", thread_order := some (PyVal.int 1) },
            { text := "A", thread_order := some (PyVal.int 2) }] := by
    simp [sortGroup, keyRows, pyToKey, List.mergeSort, lexLe]
  exact ⟨hs, (sortGroup_sorted_stable _ _ hs).1⟩

theorem get_unposted_groups_partitions_witness :
    updRec 0 { posted := "FALSE" } ∈ allRows (get_unposted_groups [{ posted := "FALSE" }]).2 ∧
    (allRows (get_unposted_groups [{ posted := "FALSE" }]).2).countP
      (fun r => decide (r.row_index = some (0 + 2))) = 1 :=
  (get_unposted_groups_partitions [{ posted := "FALSE" }]).2 0 (by decide) (by decide)

theorem groupKey_assignment_witness :
    updRec 0 { posted := "", thread_id := "abc" } ∈
      findGroup (get_unposted_groups [{ posted := "", thread_id := "abc" }]).2
        ("THREAD_" ++ pyStrip "abc") :=
  (groupKey_assignment [{ posted := "", thread_id := "abc" }]).2.2 0 (by decide)
    (by decide) (by decide)

theorem run_load_reset_spec_witness :
    (run_load [{ posted := "TRUE" }]).bulkWrites = [("C2:C2", [["FALSE"]])] ∧
    (run_load [{ posted := "TRUE" }]).nothingToDo = false :=
  ⟨((run_load_reset_spec [{ posted := "TRUE" }]).1 (by decide) (by decide)).1,
   ((run_load_reset_spec [{ posted := "TRUE" }]).1 (by decide) (by decide)).2.2.1⟩

theorem root_failure_aborts_group_witness :
    run_publish_loop (fun _ => none) (fun _ _ => some "Y")
      [{ text := "A", row_index := some 2 }, { text := "B", row_index := some 3 }] 0 none =
      [Ev.rootCall 2] :=
  root_failure_aborts_group (fun _ => none) (fun _ _ => some "Y")
    { text := "A", row_index := some 2 } [{ text := "B", row_index := some 3 }] rfl

theorem media_classification_witness :
    is_video_file "clip.MP4" = true ∧
    resolveMedia (fun _ => true) (fun _ => none) (some " http://a/b.mov ") =
      some ("http://a/b.mov", "VIDEO") ∧
    resolveMedia (fun _ => false) (fun _ => none) (some "pic.png") =
      upload_media_to_cloudinary (fun _ => false) (fun _ => none) "pic.png" := by
  refine ⟨(media_classification "clip.MP4" (fun _ => true) (fun _ => none)).1.mpr
      (by decide), ?_, ?_⟩
  · have h := (media_classification " http://a/b.mov " (fun _ => true) (fun _ => none)).2.1
      (by decide) (by decide)
    exact h.trans (by decide)
  · exact (media_classification "pic.png" (fun _ => false) (fun _ => none)).2.2
      (by decide) (by decide)

theorem missing_media_falls_back_to_text_witness :
    post_to_threads_params (fun _ => false) (fun _ => none) "hello" (some "ghost.png") =
      [("text", "hello"), ("media_type", "TEXT")] :=
  missing_media_falls_back_to_text (fun _ => false) (fun _ => none) "hello" "ghost.png"
    (by decide) (by decide) (Or.inl rfl)

theorem get_unposted_groups_frame_witness :
    (get_unposted_groups [{ posted := "TRUE" }]).1[0]? = some { posted := "TRUE" } :=
  ((get_unposted_groups_frame [{ posted := "TRUE" }]).2.1 0 (by decide)).1 (by decide)
